import Mathlib

/-!
Shallow embedding of the Product-List-Embedding repository core:
the indexing pipeline (firestore_vector_db.py, store_products), the
single-modality retrieval engine (vector_search,
calculate_dot_product_score) and the fusion engine
(multimodal_rag_system.py, search_multimodal, search_by_text).

Vectors are modelled as lists of rationals; the cosine similarity of the
fusion step, which divides by real square roots, lands in the reals.
External collaborators (the Firestore client, the CLIP model, HTTP image
fetch) are parameters: the store's nearest-neighbour response is a list of
stored documents or an error, the embedding model is a pair of functions,
and the image fetch is a function that may fail.
-/

namespace PLE

/-! ## Generic stable descending insertion sort

Models Python's stable `list.sort(key=..., reverse=True)`: elements are
ordered by descending key and elements with equal keys keep their
original relative order. -/

def insertDesc {α : Type} {K : Type} [LinearOrder K] (k : α → K) (x : α) : List α → List α
  | [] => [x]
  | y :: ys => if k x < k y then y :: insertDesc k x ys else x :: y :: ys

def sortDesc {α : Type} {K : Type} [LinearOrder K] (k : α → K) : List α → List α
  | [] => []
  | x :: xs => insertDesc k x (sortDesc k xs)

/-! ## Vector arithmetic (multimodal_rag_system.py, firestore_vector_db.py) -/

/-- Dot product as written in the fusion code: zips the two lists
(truncating to the shorter one) and sums the products. -/
def dotQ (a b : List ℚ) : ℚ :=
  ((a.zip b).map (fun p => p.1 * p.2)).sum

/-- Sum of squares of a vector, the quantity under the square root in
the norms of cosine_similarity. -/
def sumSq (v : List ℚ) : ℚ :=
  (v.map (fun x => x * x)).sum

/-- calculate_dot_product_score: np.dot of the two vectors; numpy raises
on mismatched 1-D shapes, the except branch then returns 0.0. -/
def calculate_dot_product_score (v1 v2 : List ℚ) : ℚ :=
  if v1.length = v2.length then dotQ v1 v2 else 0

/-- cosine_similarity from search_multimodal: dot of the zipped lists
divided by the product of the Euclidean norms, and 0 whenever either
norm is zero (the condition on norm_a and norm_b). -/
noncomputable def cosineSim (a b : List ℚ) : ℝ :=
  if Real.sqrt ((sumSq a : ℚ) : ℝ) ≠ 0 ∧ Real.sqrt ((sumSq b : ℚ) : ℝ) ≠ 0 then
    ((dotQ a b : ℚ) : ℝ) / (Real.sqrt ((sumSq a : ℚ) : ℝ) * Real.sqrt ((sumSq b : ℚ) : ℝ))
  else 0

/-- Python truthiness of an optional embedding list: None and the empty
list are falsy, a non-empty list is truthy. -/
def truthy : Option (List ℚ) → Bool
  | some (_ :: _) => true
  | _ => false

/-! ## Data model -/

/-- A product record of the catalog collection: the fields store_products
and the metadata join read (doc.to_dict()).  is_emb is the R/D indexing
state flag ("R" pending, "D" done). -/
structure Product where
  id : String
  product_name : String
  image_url : String
  is_emb : String
deriving DecidableEq

/-- A document of the vector collection as returned by the store's
find_nearest stream: the id field and the two stored embedding fields,
each possibly missing or malformed (modelled as none). -/
structure StoreDoc where
  id : String
  text_embedding : Option (List ℚ)
  image_embedding : Option (List ℚ)
deriving DecidableEq

/-- The embedding document written by store_products. -/
structure EmbDoc where
  id : String
  text_embedding : List ℚ
  image_embedding : List ℚ
deriving DecidableEq

/-- A search result dict as assembled by vector_search and enriched by
search_multimodal (combined_embedding starts absent). -/
structure Hit where
  id : String
  similarity_score : ℚ
  text_embedding : Option (List ℚ)
  image_embedding : Option (List ℚ)
  product_data : Option Product
  combined_embedding : Option (List ℚ)
deriving DecidableEq

/-- The query_type switch of vector_search ("image" selects the image
field, anything else the text field). -/
inductive QType where
  | text : QType
  | image : QType
deriving DecidableEq

def embField (qt : QType) (d : StoreDoc) : Option (List ℚ) :=
  match qt with
  | .image => d.image_embedding
  | .text => d.text_embedding

/-! ## RetrievalEngine: vector_search -/

/-- One combined_result dict of vector_search: the recomputed similarity
score (0 when the stored embedding is missing or empty), the raw stored
embeddings, and the metadata join (cat models product_collection
document get; none models a failed or empty lookup, and the falsy-id
guard skips the lookup). -/
def mkHit (cat : String → Option Product) (q : List ℚ) (qt : QType) (d : StoreDoc) : Hit :=
  { id := d.id
    similarity_score :=
      if truthy (embField qt d) then
        calculate_dot_product_score q ((embField qt d).getD [])
      else 0
    text_embedding := d.text_embedding
    image_embedding := d.image_embedding
    product_data := if d.id ≠ "" then cat d.id else none
    combined_embedding := none }

/-- The body of vector_search's try block: build one result per streamed
document and stably re-sort descending by the recomputed score. -/
def vectorSearchOk (cat : String → Option Product) (q : List ℚ) (qt : QType)
    (cands : List StoreDoc) : List Hit :=
  sortDesc (fun h => h.similarity_score) (cands.map (mkHit cat q qt))

/-- vector_search: the store response is either the streamed candidate
list or an exception; any exception is caught and an empty list is
returned. -/
def vector_search (cat : String → Option Product) (q : List ℚ) (qt : QType)
    (resp : Except Unit (List StoreDoc)) : List Hit :=
  match resp with
  | .error _ => []
  | .ok cands => vectorSearchOk cat q qt cands

/-- search_by_text: empty or missing query embedding returns [] before
touching the store. -/
def search_by_text (cat : String → Option Product) (qEmb : Option (List ℚ))
    (resp : Except Unit (List StoreDoc)) : List Hit :=
  if truthy qEmb then vector_search cat (qEmb.getD []) .text resp else []

/-! ## FusionEngine: search_multimodal -/

/-- The combined_dict merge loop: walk text_results + image_results,
keep the first dict for each truthy id, drop falsy ids and later
duplicates. -/
def dedupeGo (seen : List String) : List Hit → List Hit
  | [] => []
  | h :: t =>
      if h.id ≠ "" ∧ h.id ∉ seen then h :: dedupeGo (h.id :: seen) t
      else dedupeGo seen t

def mergeResults (txt img : List Hit) : List Hit :=
  dedupeGo [] (txt ++ img)

/-- The weighted per-dimension blend of search_multimodal:
zip(image_emb, text_emb) mapped through alpha * i + (1 - alpha) * t;
zip truncates to the shorter list. -/
def combineVec (a : ℚ) (img txt : List ℚ) : List ℚ :=
  ((img.zip txt).map (fun p => a * p.1 + (1 - a) * p.2))

/-- The per-candidate combined_embedding assignment: weighted blend when
both stored embeddings are truthy, the present vector unchanged when
only one is, the empty list when neither is. -/
def setCombined (a : ℚ) (h : Hit) : Hit :=
  let t := h.text_embedding.getD []
  let i := h.image_embedding.getD []
  if t ≠ [] ∧ i ≠ [] then { h with combined_embedding := some (combineVec a i t) }
  else if t ≠ [] then { h with combined_embedding := some t }
  else if i ≠ [] then { h with combined_embedding := some i }
  else { h with combined_embedding := some [] }

/-- search_multimodal: bail out with [] when either query embedding is
falsy; otherwise run the two single-modality searches, merge, blend,
re-sort descending by cosine similarity against the blended query
embedding, and truncate to limit. -/
noncomputable def search_multimodal (cat : String → Option Product)
    (tEmb iEmb : Option (List ℚ)) (tResp iResp : Except Unit (List StoreDoc))
    (a : ℚ) (limit : ℕ) : List Hit :=
  if truthy tEmb && truthy iEmb then
    let t := tEmb.getD []
    let i := iEmb.getD []
    let tr := vector_search cat t .text tResp
    let ir := vector_search cat i .image iResp
    let merged := (mergeResults tr ir).map (setCombined a)
    let qc := combineVec a i t
    (sortDesc (fun h => cosineSim (h.combined_embedding.getD []) qc) merged).take limit
  else []

/-! ## IndexingPipeline: store_products

The external collaborators of store_products: the embedding model
(encode_text may raise out of the per-item try block or return a falsy
value; encode_image catches internally and returns an optional vector)
and the image fetch+decode (requests.get followed by Image.open; it sits
outside the per-item try block, so a failure there raises into the outer
handler). -/

structure EmbeddingModel (Img : Type) where
  encodeText : String → Except Unit (Option (List ℚ))
  encodeImage : Img → Option (List ℚ)

/-- Outcome of the loop body for one pending product: skip (continue to
the next record), stored (embedding document written and state flipped),
or aborted (an uncaught exception left the loop and hit the outer
handler). -/
inductive StepOutcome where
  | skip : StepOutcome
  | stored : EmbDoc → StepOutcome
  | aborted : StepOutcome
deriving DecidableEq

def stepOutcome {Img : Type} (em : EmbeddingModel Img) (fetch : String → Option Img)
    (p : Product) : StepOutcome :=
  match em.encodeText p.product_name with
  | .error _ => .skip
  | .ok t =>
    match fetch p.image_url with
    | none => .aborted
    | some img =>
      let i := em.encodeImage img
      if truthy t && truthy i then .stored ⟨p.id, t.getD [], i.getD []⟩
      else .skip

/-- State of the two Firestore collections touched by store_products:
the product catalog and the vector collection. -/
structure IndexState where
  products : List Product
  docs : List EmbDoc
deriving DecidableEq

/-- embedding_collection.document(id).set: idempotent upsert keyed by
the document id. -/
def setDoc (docs : List EmbDoc) (d : EmbDoc) : List EmbDoc :=
  if docs.any (fun e => e.id = d.id) then
    docs.map (fun e => if e.id = d.id then d else e)
  else docs ++ [d]

/-- product_collection.document(id).update is_emb = "D". -/
def markDone (ps : List Product) (i : String) : List Product :=
  ps.map (fun p => if p.id = i then { p with is_emb := "D" } else p)

/-- Observable store effects of one run, in execution order. -/
inductive Event where
  | write : EmbDoc → Event
  | flip : String → Event
deriving DecidableEq

structure RunResult where
  state : IndexState
  stored_count : ℕ
  ok : Bool
  trace : List Event
deriving DecidableEq

/-- The per-product loop of store_products over an already-selected list
of pending products. -/
def runGo {Img : Type} (em : EmbeddingModel Img) (fetch : String → Option Img) :
    List Product → IndexState → ℕ → RunResult
  | [], s, n => ⟨s, n, true, []⟩
  | p :: rest, s, n =>
    match stepOutcome em fetch p with
    | .skip => runGo em fetch rest s n
    | .aborted => ⟨s, n, false, []⟩
    | .stored d =>
        let r := runGo em fetch rest ⟨markDone s.products p.id, setDoc s.docs d⟩ (n + 1)
        { r with trace := .write d :: .flip p.id :: r.trace }

/-- The query of store_products: products whose is_emb field equals "R". -/
def pendingOf (ps : List Product) : List Product :=
  ps.filter (fun p => p.is_emb = "R")

/-- store_products: select the pending products and run the loop. -/
def store_products {Img : Type} (em : EmbeddingModel Img) (fetch : String → Option Img)
    (s : IndexState) : RunResult :=
  runGo em fetch (pendingOf s.products) s 0

/-! ### Pure recurrences mirroring runGo, used in proofs -/

/-- Number of products stored before the loop ends or aborts; depends on
the product list only, since the step outcome never reads the state. -/
def runCount {Img : Type} (em : EmbeddingModel Img) (fetch : String → Option Img) :
    List Product → ℕ
  | [] => 0
  | p :: rest =>
    match stepOutcome em fetch p with
    | .skip => runCount em fetch rest
    | .aborted => 0
    | .stored _ => runCount em fetch rest + 1

/-- Ids flipped to "D" before the loop ends or aborts. -/
def runStoredIds {Img : Type} (em : EmbeddingModel Img) (fetch : String → Option Img) :
    List Product → List String
  | [] => []
  | p :: rest =>
    match stepOutcome em fetch p with
    | .skip => runStoredIds em fetch rest
    | .aborted => []
    | .stored _ => p.id :: runStoredIds em fetch rest

/-- Flip is_emb to "D" on every product whose id is in the given set. -/
def flipSet (ids : List String) (ps : List Product) : List Product :=
  ps.map (fun p => if p.id ∈ ids then { p with is_emb := "D" } else p)

/-- Processing this product list stores nothing: every product up to the
end of the list or the first abort is skipped. -/
def storesNothing {Img : Type} (em : EmbeddingModel Img) (fetch : String → Option Img) :
    List Product → Prop
  | [] => True
  | p :: rest =>
    match stepOutcome em fetch p with
    | .skip => storesNothing em fetch rest
    | .aborted => True
    | .stored _ => False

/-- Trace shape guaranteed by the loop: a sequence of write/flip pairs,
each flip immediately preceded by the successful write of the same id. -/
def wellFormedTrace : List Event → Prop
  | [] => True
  | .write d :: .flip i :: rest => d.id = i ∧ wellFormedTrace rest
  | _ => False

/-! ## Concrete instances used in witnesses and counterexamples -/

/-- Metadata lookup whose every join fails. -/
def noCat : String → Option Product := fun _ => none

/-- Embedding model returning constant non-empty embeddings. -/
def emOkU : EmbeddingModel Unit :=
  ⟨fun _ => .ok (some [1]), fun _ => some [2]⟩

/-- Embedding model whose text encoding always raises. -/
def emErrU : EmbeddingModel Unit :=
  ⟨fun _ => .error (), fun _ => some [2]⟩

/-- Image fetch that fails exactly on the url "bad". -/
def fetchBad : String → Option Unit := fun u => if u = "bad" then none else some ()

/-- Image fetch that always succeeds. -/
def fetchOkU : String → Option Unit := fun _ => some ()

/-- Pending product whose image url cannot be fetched. -/
def p1 : Product := ⟨"p1", "n1", "bad", "R"⟩

/-- Pending product that embeds and stores fine. -/
def p2 : Product := ⟨"p2", "n2", "good", "R"⟩

/-- Stored document with a one-dimensional text embedding. -/
def dW : StoreDoc := ⟨"w", some [1], none⟩

/-- Stored document with text embedding of dimension two. -/
def dA4 : StoreDoc := ⟨"A", some [1, 0], none⟩

/-- Stored document whose text embedding is missing (malformed). -/
def dZ : StoreDoc := ⟨"Z", none, none⟩

/-- Hit with both stored embeddings present. -/
def hW : Hit := ⟨"h", 0, some [1, 2], some [3, 4], none, none⟩

/-- Text-list hit with id x. -/
def hx1 : Hit := ⟨"x", 1, some [1], none, none, none⟩

/-- Image-list hit sharing id x. -/
def hx2 : Hit := ⟨"x", 2, none, some [2], none, none⟩

/-- Text-list hit with id y. -/
def hy1 : Hit := ⟨"y", 3, some [3], none, none, none⟩

/-- Stored document whose text embedding has a large norm: its dot
product with the query [1,0] is 4, its cosine 4/5. -/
def dA6 : StoreDoc := ⟨"A", some [4, 3], none⟩

/-- Stored document whose text embedding is the unit query vector
itself: dot 1, cosine 1. -/
def dB6 : StoreDoc := ⟨"B", some [1, 0], none⟩

/-- The merged candidate set of the fusion step: the deduplicated union
of the text-modality and image-modality search results. -/
def mergedOf (cat : String → Option Product) (t i : List ℚ)
    (tResp iResp : Except Unit (List StoreDoc)) : List Hit :=
  mergeResults (vector_search cat t .text tResp) (vector_search cat i .image iResp)

/-! ## Lemmas about the stable descending sort -/

theorem insertDesc_perm {α K : Type} [LinearOrder K] (k : α → K) (x : α) (l : List α) :
    (insertDesc k x l).Perm (x :: l) := by
  induction l with
  | nil => simp [insertDesc]
  | cons y ys ih =>
    by_cases h : k x < k y
    · simp only [insertDesc, if_pos h]
      exact (ih.cons y).trans (List.Perm.swap x y ys)
    · simp only [insertDesc, if_neg h]
      exact List.Perm.refl _

theorem sortDesc_perm {α K : Type} [LinearOrder K] (k : α → K) (l : List α) :
    (sortDesc k l).Perm l := by
  induction l with
  | nil => exact List.Perm.refl _
  | cons x xs ih =>
    exact (insertDesc_perm k x (sortDesc k xs)).trans (ih.cons x)

theorem mem_sortDesc {α K : Type} [LinearOrder K] {k : α → K} {l : List α} {a : α} :
    a ∈ sortDesc k l ↔ a ∈ l :=
  (sortDesc_perm k l).mem_iff

theorem sorted_insertDesc {α K : Type} [LinearOrder K] (k : α → K) (x : α) {l : List α}
    (h : l.Pairwise (fun a b => k b ≤ k a)) :
    (insertDesc k x l).Pairwise (fun a b => k b ≤ k a) := by
  induction l with
  | nil => simp [insertDesc]
  | cons y ys ih =>
    rcases List.pairwise_cons.mp h with ⟨hy, hys⟩
    by_cases hlt : k x < k y
    · simp only [insertDesc, if_pos hlt]
      refine List.pairwise_cons.mpr ⟨?_, ih hys⟩
      intro z hz
      rcases List.mem_cons.mp ((insertDesc_perm k x ys).mem_iff.mp hz) with hz | hz
      · exact hz ▸ hlt.le
      · exact hy z hz
    · simp only [insertDesc, if_neg hlt]
      refine List.pairwise_cons.mpr ⟨?_, h⟩
      intro z hz
      rcases List.mem_cons.mp hz with hz | hz
      · exact hz ▸ le_of_not_lt hlt
      · exact (hy z hz).trans (le_of_not_lt hlt)

theorem sorted_sortDesc {α K : Type} [LinearOrder K] (k : α → K) (l : List α) :
    (sortDesc k l).Pairwise (fun a b => k b ≤ k a) := by
  induction l with
  | nil => simp [sortDesc]
  | cons x xs ih => exact sorted_insertDesc k x ih

theorem filter_insertDesc {α K : Type} [LinearOrder K] (k : α → K) (x : α) (l : List α)
    (s : K) :
    (insertDesc k x l).filter (fun y => decide (k y = s)) =
      if k x = s then x :: l.filter (fun y => decide (k y = s))
      else l.filter (fun y => decide (k y = s)) := by
  induction l with
  | nil =>
    by_cases hx : k x = s <;> simp [insertDesc, hx]
  | cons y ys ih =>
    by_cases hlt : k x < k y
    · simp only [insertDesc, if_pos hlt]
      by_cases hy : k y = s
      · have hx : ¬ k x = s := fun hxs => absurd (hxs ▸ hlt) (by simp [hy])
        simp [List.filter_cons, hy, hx, ih]
      · simp only [List.filter_cons]
        by_cases hx : k x = s <;> simp [hx, hy, ih]
    · simp only [insertDesc, if_neg hlt]
      by_cases hx : k x = s <;> simp [List.filter_cons, hx]

theorem filter_sortDesc {α K : Type} [LinearOrder K] (k : α → K) (l : List α) (s : K) :
    (sortDesc k l).filter (fun y => decide (k y = s)) =
      l.filter (fun y => decide (k y = s)) := by
  induction l with
  | nil => simp [sortDesc]
  | cons x xs ih =>
    simp only [sortDesc, filter_insertDesc, ih, List.filter_cons]
    by_cases hx : k x = s <;> simp [hx]

theorem sorted_filter_pos_append {α : Type} (k : α → ℚ) (l : List α)
    (h : l.Pairwise (fun a b => k b ≤ k a)) :
    l.filter (fun x => decide (0 < k x)) ++ l.filter (fun x => decide (k x ≤ 0)) = l := by
  induction l with
  | nil => simp
  | cons x xs ih =>
    rcases List.pairwise_cons.mp h with ⟨hx, hxs⟩
    by_cases h0 : 0 < k x
    · have hnp : ¬ k x ≤ 0 := not_le.mpr h0
      simp [List.filter_cons, h0, hnp, ih hxs]
    · have hle : k x ≤ 0 := le_of_not_lt h0
      have hnil : xs.filter (fun z => decide (0 < k z)) = [] := by
        refine List.filter_eq_nil_iff.mpr ?_
        intro z hz
        simp only [decide_eq_true_eq]
        exact not_lt.mpr ((hx z hz).trans hle)
      have hall : xs.filter (fun z => decide (k z ≤ 0)) = xs := by
        refine List.filter_eq_self.mpr ?_
        intro z hz
        simpa using (hx z hz).trans hle
      simp [List.filter_cons, h0, hle, hnil, hall]

theorem insertDesc_map {α β K : Type} [LinearOrder K] (k : α → K) (f : β → α) (x : β)
    (l : List β) :
    insertDesc k (f x) (l.map f) = (insertDesc (fun b => k (f b)) x l).map f := by
  induction l with
  | nil => simp [insertDesc]
  | cons y ys ih =>
    by_cases h : k (f x) < k (f y) <;> simp [insertDesc, h, ih]

theorem sortDesc_map {α β K : Type} [LinearOrder K] (k : α → K) (f : β → α) (l : List β) :
    sortDesc k (l.map f) = (sortDesc (fun b => k (f b)) l).map f := by
  induction l with
  | nil => simp [sortDesc]
  | cons x xs ih => simp [sortDesc, ih, insertDesc_map]

theorem insertDesc_congr {α K₁ K₂ : Type} [LinearOrder K₁] [LinearOrder K₂]
    (k₁ : α → K₁) (k₂ : α → K₂) (x : α) (l : List α)
    (hx : ∀ y ∈ l, (k₁ x < k₁ y ↔ k₂ x < k₂ y)) :
    insertDesc k₁ x l = insertDesc k₂ x l := by
  induction l with
  | nil => rfl
  | cons y ys ih =>
    have hy := hx y (List.mem_cons_self y ys)
    by_cases h : k₁ x < k₁ y
    · simp only [insertDesc, if_pos h, if_pos (hy.mp h)]
      exact congrArg (y :: ·) (ih fun z hz => hx z (List.mem_cons_of_mem y hz))
    · simp only [insertDesc, if_neg h, if_neg (fun h2 => h (hy.mpr h2))]

theorem sortDesc_congr {α K₁ K₂ : Type} [LinearOrder K₁] [LinearOrder K₂]
    (k₁ : α → K₁) (k₂ : α → K₂) (l : List α)
    (h : ∀ a ∈ l, ∀ b ∈ l, (k₁ a < k₁ b ↔ k₂ a < k₂ b)) :
    sortDesc k₁ l = sortDesc k₂ l := by
  induction l with
  | nil => rfl
  | cons x xs ih =>
    simp only [sortDesc]
    rw [ih fun a ha b hb =>
      h a (List.mem_cons_of_mem x ha) b (List.mem_cons_of_mem x hb)]
    exact insertDesc_congr k₁ k₂ x (sortDesc k₂ xs) fun y hy =>
      h x (List.mem_cons_self x xs) y
        (List.mem_cons_of_mem x (mem_sortDesc.mp hy))

/-! ## Lemmas about the indexing pipeline -/

theorem truthy_eq_true {o : Option (List ℚ)} :
    truthy o = true ↔ ∃ v, o = some v ∧ v ≠ [] := by
  cases o with
  | none => simp [truthy]
  | some l => cases l <;> simp [truthy]

theorem stepOutcome_stored {Img : Type} (em : EmbeddingModel Img)
    (fetch : String → Option Img) (p : Product) (d : EmbDoc)
    (h : stepOutcome em fetch p = .stored d) :
    ∃ tv img iv, em.encodeText p.product_name = .ok (some tv) ∧ tv ≠ [] ∧
      fetch p.image_url = some img ∧ em.encodeImage img = some iv ∧ iv ≠ [] ∧
      d = ⟨p.id, tv, iv⟩ := by
  cases het : em.encodeText p.product_name with
  | error e => simp [stepOutcome, het] at h
  | ok t =>
    cases hf : fetch p.image_url with
    | none => simp [stepOutcome, het, hf] at h
    | some img =>
      simp only [stepOutcome, het, hf] at h
      by_cases htr : truthy t && truthy (em.encodeImage img)
      · rw [if_pos htr] at h
        have htr2 : truthy t = true ∧ truthy (em.encodeImage img) = true := by
          simpa using htr
        rcases htr2 with ⟨ht, hi⟩
        rcases truthy_eq_true.mp ht with ⟨tv, htv, htvne⟩
        rcases truthy_eq_true.mp hi with ⟨iv, hiv, hivne⟩
        refine ⟨tv, img, iv, congrArg Except.ok htv, htvne, rfl, hiv, hivne, ?_⟩
        cases h
        simp [htv, hiv]
      · rw [if_neg htr] at h
        simp at h

theorem runGo_trace_wellFormed {Img : Type} (em : EmbeddingModel Img)
    (fetch : String → Option Img) (l : List Product) (s : IndexState) (n : ℕ) :
    wellFormedTrace (runGo em fetch l s n).trace := by
  induction l generalizing s n with
  | nil => simp [runGo, wellFormedTrace]
  | cons p rest ih =>
    cases h : stepOutcome em fetch p with
    | skip => simpa [runGo, h] using ih s n
    | aborted => simp [runGo, h, wellFormedTrace]
    | stored d =>
      rcases stepOutcome_stored em fetch p d h with ⟨tv, img, iv, _, _, _, _, _, hd⟩
      simp only [runGo, h]
      exact ⟨by simp [hd], ih _ _⟩

theorem runGo_trace_provenance {Img : Type} (em : EmbeddingModel Img)
    (fetch : String → Option Img) (l : List Product) (s : IndexState) (n : ℕ) :
    ∀ e ∈ (runGo em fetch l s n).trace, ∃ p ∈ l, ∃ d,
      stepOutcome em fetch p = .stored d ∧ (e = .write d ∨ e = .flip p.id) := by
  induction l generalizing s n with
  | nil => simp [runGo]
  | cons p rest ih =>
    cases h : stepOutcome em fetch p with
    | skip =>
      intro e he
      rcases ih s n e (by simpa [runGo, h] using he) with ⟨q, hq, d, hd, hor⟩
      exact ⟨q, List.mem_cons_of_mem p hq, d, hd, hor⟩
    | aborted => simp [runGo, h]
    | stored d =>
      intro e he
      simp only [runGo, h, List.mem_cons] at he
      rcases he with he | he | he
      · exact ⟨p, List.mem_cons_self p rest, d, h, Or.inl he⟩
      · exact ⟨p, List.mem_cons_self p rest, d, h, Or.inr he⟩
      · rcases ih _ _ e he with ⟨q, hq, d', hd', hor⟩
        exact ⟨q, List.mem_cons_of_mem p hq, d', hd', hor⟩

theorem runGo_stored_count {Img : Type} (em : EmbeddingModel Img)
    (fetch : String → Option Img) (l : List Product) (s : IndexState) (n : ℕ) :
    (runGo em fetch l s n).stored_count = n + runCount em fetch l := by
  induction l generalizing s n with
  | nil => simp [runGo, runCount]
  | cons p rest ih =>
    cases h : stepOutcome em fetch p with
    | skip => simp [runGo, runCount, h, ih]
    | aborted => simp [runGo, runCount, h]
    | stored d =>
      simp only [runGo, runCount, h, ih]
      omega

theorem flipSet_nil (ps : List Product) : flipSet [] ps = ps := by
  simp [flipSet]

theorem flipSet_markDone (S : List String) (a : String) (ps : List Product) :
    flipSet S (markDone ps a) = flipSet (a :: S) ps := by
  simp only [flipSet, markDone, List.map_map]
  refine List.map_congr_left ?_
  intro p _
  by_cases hpa : p.id = a
  · by_cases hps : p.id ∈ S <;> simp [Function.comp, hpa, hps]
  · by_cases hps : p.id ∈ S <;> simp [Function.comp, hpa, hps]

theorem runGo_products {Img : Type} (em : EmbeddingModel Img)
    (fetch : String → Option Img) (l : List Product) (s : IndexState) (n : ℕ) :
    (runGo em fetch l s n).state.products = flipSet (runStoredIds em fetch l) s.products := by
  induction l generalizing s n with
  | nil => simp [runGo, runStoredIds, flipSet_nil]
  | cons p rest ih =>
    cases h : stepOutcome em fetch p with
    | skip => simp [runGo, runStoredIds, h, ih]
    | aborted => simp [runGo, runStoredIds, h, flipSet_nil]
    | stored d =>
      simp only [runGo, runStoredIds, h]
      rw [ih]
      exact flipSet_markDone _ _ _

theorem pendingOf_flipSet (S : List String) (ps : List Product) :
    pendingOf (flipSet S ps) = (pendingOf ps).filter (fun p => decide (p.id ∉ S)) := by
  induction ps with
  | nil => rfl
  | cons q qs ih =>
    by_cases hq : q.id ∈ S
    · have h1 : flipSet S (q :: qs) = { q with is_emb := "D" } :: flipSet S qs := by
        simp [flipSet, hq]
      have h2 : pendingOf ({ q with is_emb := "D" } :: flipSet S qs) =
          pendingOf (flipSet S qs) := by
        simp [pendingOf, List.filter_cons]
      rw [h1, h2, ih]
      by_cases hr : q.is_emb = "R"
      · have h3 : pendingOf (q :: qs) = q :: pendingOf qs := by
          simp [pendingOf, List.filter_cons, hr]
        rw [h3, List.filter_cons, if_neg (by simpa using hq)]
      · have h3 : pendingOf (q :: qs) = pendingOf qs := by
          simp [pendingOf, List.filter_cons, hr]
        rw [h3]
    · have h1 : flipSet S (q :: qs) = q :: flipSet S qs := by simp [flipSet, hq]
      rw [h1]
      by_cases hr : q.is_emb = "R"
      · have h2 : pendingOf (q :: flipSet S qs) = q :: pendingOf (flipSet S qs) := by
          simp [pendingOf, List.filter_cons, hr]
        have h3 : pendingOf (q :: qs) = q :: pendingOf qs := by
          simp [pendingOf, List.filter_cons, hr]
        rw [h2, h3, ih, List.filter_cons, if_pos (by simpa using hq)]
      · have h2 : pendingOf (q :: flipSet S qs) = pendingOf (flipSet S qs) := by
          simp [pendingOf, List.filter_cons, hr]
        have h3 : pendingOf (q :: qs) = pendingOf qs := by
          simp [pendingOf, List.filter_cons, hr]
        rw [h2, h3, ih]

theorem storesNothing_runCount {Img : Type} (em : EmbeddingModel Img)
    (fetch : String → Option Img) (l : List Product)
    (h : storesNothing em fetch l) : runCount em fetch l = 0 := by
  induction l with
  | nil => simp [runCount]
  | cons p rest ih =>
    cases hs : stepOutcome em fetch p with
    | skip =>
      simp only [storesNothing, hs] at h
      simp [runCount, hs, ih h]
    | aborted => simp [runCount, hs]
    | stored d =>
      simp only [storesNothing, hs] at h

theorem storesNothing_filter_storedIds {Img : Type} (em : EmbeddingModel Img)
    (fetch : String → Option Img) (l : List Product)
    (hnd : (l.map Product.id).Nodup) :
    storesNothing em fetch
      (l.filter (fun p => decide (p.id ∉ runStoredIds em fetch l))) := by
  induction l with
  | nil => simp [storesNothing]
  | cons p rest ih =>
    have hnd2 : (∀ q ∈ rest, ¬ q.id = p.id) ∧ (rest.map Product.id).Nodup := by
      simpa using hnd
    rcases hnd2 with ⟨hpid, hrest⟩
    cases h : stepOutcome em fetch p with
    | skip =>
      simp only [runStoredIds, h, List.filter_cons]
      by_cases hp : p.id ∈ runStoredIds em fetch rest
      · rw [if_neg (by simpa using hp)]
        exact ih hrest
      · rw [if_pos (by simpa using hp)]
        simpa [storesNothing, h] using ih hrest
    | aborted =>
      simp only [runStoredIds, h, List.filter_cons]
      rw [if_pos (by simp)]
      simp [storesNothing, h]
    | stored d =>
      simp only [runStoredIds, h, List.filter_cons]
      rw [if_neg (by simp)]
      have hcongr : rest.filter
            (fun q => decide (q.id ∉ p.id :: runStoredIds em fetch rest))
          = rest.filter (fun q => decide (q.id ∉ runStoredIds em fetch rest)) := by
        refine List.filter_congr ?_
        intro q hq
        have hne : q.id ≠ p.id := hpid q hq
        simp [List.mem_cons, hne]
      rw [hcongr]
      exact ih hrest

/-! ## Lemmas about the merge, the blend and the cosine -/

theorem mem_dedupeGo (l : List Hit) (seen : List String) (h : Hit) :
    h ∈ dedupeGo seen l ↔
      h.id ≠ "" ∧ h.id ∉ seen ∧ l.find? (fun x => x.id == h.id) = some h := by
  induction l generalizing seen with
  | nil => simp [dedupeGo]
  | cons y ys ih =>
    by_cases hy : y.id ≠ "" ∧ y.id ∉ seen
    · simp only [dedupeGo, if_pos hy, List.mem_cons]
      by_cases hhy : h = y
      · subst hhy
        simp only [List.find?_cons_of_pos _ (beq_self_eq_true h.id)]
        simp [hy.1, hy.2]
      · simp only [hhy, false_or]
        rw [ih]
        by_cases hid : y.id = h.id
        · rw [List.find?_cons_of_pos _ (by simp [hid])]
          constructor
          · rintro ⟨h1, h2, h3⟩
            exact absurd (show h.id ∈ y.id :: seen by simp [hid]) h2
          · rintro ⟨h1, h2, h3⟩
            exact absurd (Option.some.inj h3) fun hc => hhy hc.symm
        · rw [List.find?_cons_of_neg _ (by simp [hid])]
          constructor
          · rintro ⟨h1, h2, h3⟩
            exact ⟨h1, fun hmem => h2 (List.mem_cons_of_mem _ hmem), h3⟩
          · rintro ⟨h1, h2, h3⟩
            refine ⟨h1, ?_, h3⟩
            simp only [List.mem_cons, not_or]
            exact ⟨fun hc => hid (hc.symm), h2⟩
    · simp only [dedupeGo, if_neg hy]
      rw [ih]
      push_neg at hy
      by_cases hid : y.id = h.id
      · rw [List.find?_cons_of_pos _ (by simp [hid])]
        constructor
        · rintro ⟨h1, h2, _⟩
          exfalso
          rcases eq_or_ne y.id "" with he | hne
          · exact h1 (hid ▸ he)
          · exact h2 (hid ▸ hy hne)
        · rintro ⟨h1, h2, h3⟩
          exfalso
          have hyh : y = h := by simpa using h3
          rcases eq_or_ne y.id "" with he | hne
          · exact h1 (hid ▸ he)
          · exact h2 (hid ▸ hy hne)
      · rw [List.find?_cons_of_neg _ (by simp [hid])]

theorem nodup_dedupeGo (l : List Hit) (seen : List String) :
    ((dedupeGo seen l).map Hit.id).Nodup ∧
      ∀ j ∈ (dedupeGo seen l).map Hit.id, j ∉ seen := by
  induction l generalizing seen with
  | nil => simp [dedupeGo]
  | cons y ys ih =>
    by_cases hy : y.id ≠ "" ∧ y.id ∉ seen
    · simp only [dedupeGo, if_pos hy, List.map_cons]
      rcases ih (y.id :: seen) with ⟨ihn, ihs⟩
      constructor
      · refine List.nodup_cons.mpr ⟨?_, ihn⟩
        intro hc
        exact ihs y.id hc (List.mem_cons_self _ _)
      · intro j hj
        rcases List.mem_cons.mp hj with hj | hj
        · exact hj ▸ hy.2
        · exact fun hc => ihs j hj (List.mem_cons_of_mem _ hc)
    · simp only [dedupeGo, if_neg hy]
      exact ih seen

theorem find?_eq_of_nodup_ids {l : List Hit} {h : Hit} {j : String}
    (hnd : (l.map Hit.id).Nodup) (hmem : h ∈ l) (hid : h.id = j) :
    l.find? (fun x => x.id == j) = some h := by
  induction l with
  | nil => cases hmem
  | cons y ys ih =>
    have hnd2 : (∀ x ∈ ys, ¬ x.id = y.id) ∧ (ys.map Hit.id).Nodup := by
      simpa using hnd
    rcases List.mem_cons.mp hmem with hmem | hmem
    · subst hmem
      exact List.find?_cons_of_pos _ (by simp [hid])
    · have hne : y.id ≠ j := fun hc => hnd2.1 h hmem (hid.trans hc.symm)
      rw [List.find?_cons_of_neg _ (by simp [hne])]
      exact ih hnd2.2 hmem

theorem setCombined_eq (a : ℚ) (h : Hit) :
    ∃ c, setCombined a h = { h with combined_embedding := some c } := by
  unfold setCombined
  by_cases h1 : h.text_embedding.getD [] ≠ [] ∧ h.image_embedding.getD [] ≠ []
  · exact ⟨_, if_pos h1⟩
  · rw [if_neg h1]
    by_cases h2 : h.text_embedding.getD [] ≠ []
    · exact ⟨_, if_pos h2⟩
    · rw [if_neg h2]
      by_cases h3 : h.image_embedding.getD [] ≠ []
      · exact ⟨_, if_pos h3⟩
      · exact ⟨_, if_neg h3⟩

theorem setCombined_id (a : ℚ) (h : Hit) : (setCombined a h).id = h.id := by
  rcases setCombined_eq a h with ⟨c, hc⟩
  rw [hc]

theorem setCombined_similarity_score (a : ℚ) (h : Hit) :
    (setCombined a h).similarity_score = h.similarity_score := by
  rcases setCombined_eq a h with ⟨c, hc⟩
  rw [hc]

theorem setCombined_text_embedding (a : ℚ) (h : Hit) :
    (setCombined a h).text_embedding = h.text_embedding := by
  rcases setCombined_eq a h with ⟨c, hc⟩
  rw [hc]

theorem setCombined_image_embedding (a : ℚ) (h : Hit) :
    (setCombined a h).image_embedding = h.image_embedding := by
  rcases setCombined_eq a h with ⟨c, hc⟩
  rw [hc]

theorem setCombined_both (a : ℚ) (h : Hit)
    (ht : h.text_embedding.getD [] ≠ []) (hi : h.image_embedding.getD [] ≠ []) :
    (setCombined a h).combined_embedding =
      some (combineVec a (h.image_embedding.getD []) (h.text_embedding.getD [])) := by
  unfold setCombined
  rw [if_pos ⟨ht, hi⟩]

theorem setCombined_text_only (a : ℚ) (h : Hit)
    (ht : h.text_embedding.getD [] ≠ []) (hi : h.image_embedding.getD [] = []) :
    (setCombined a h).combined_embedding = some (h.text_embedding.getD []) := by
  unfold setCombined
  rw [if_neg (by simp [hi]), if_pos ht]

theorem setCombined_image_only (a : ℚ) (h : Hit)
    (ht : h.text_embedding.getD [] = []) (hi : h.image_embedding.getD [] ≠ []) :
    (setCombined a h).combined_embedding = some (h.image_embedding.getD []) := by
  unfold setCombined
  rw [if_neg (by simp [ht]), if_neg (by simp [ht]), if_pos hi]

theorem setCombined_neither (a : ℚ) (h : Hit)
    (ht : h.text_embedding.getD [] = []) (hi : h.image_embedding.getD [] = []) :
    (setCombined a h).combined_embedding = some [] := by
  unfold setCombined
  rw [if_neg (by simp [ht]), if_neg (by simp [ht]), if_neg (by simp [hi])]

theorem combineVec_length (a : ℚ) (img txt : List ℚ) :
    (combineVec a img txt).length = min img.length txt.length := by
  simp [combineVec]

theorem combineVec_eq_zipWith (a : ℚ) (img txt : List ℚ) :
    combineVec a img txt = List.zipWith (fun x y => a * x + (1 - a) * y) img txt := by
  induction img generalizing txt with
  | nil => simp [combineVec]
  | cons x xs ih =>
    cases txt with
    | nil => simp [combineVec]
    | cons y ys => simpa [combineVec] using ih ys

theorem combineVec_zero (img txt : List ℚ) (h : img.length = txt.length) :
    combineVec 0 img txt = txt := by
  induction img generalizing txt with
  | nil =>
    cases txt with
    | nil => rfl
    | cons y ys => simp at h
  | cons x xs ih =>
    cases txt with
    | nil => simp at h
    | cons y ys =>
      have h2 : xs.length = ys.length := by simpa using h
      have hr := ih ys h2
      simp only [combineVec, List.zip_cons_cons, List.map_cons] at hr ⊢
      rw [hr]
      norm_num

theorem combineVec_one (img txt : List ℚ) (h : img.length = txt.length) :
    combineVec 1 img txt = img := by
  induction img generalizing txt with
  | nil => rfl
  | cons x xs ih =>
    cases txt with
    | nil => simp at h
    | cons y ys =>
      have h2 : xs.length = ys.length := by simpa using h
      have hr := ih ys h2
      simp only [combineVec, List.zip_cons_cons, List.map_cons] at hr ⊢
      rw [hr]
      norm_num

theorem sumSq_nonneg (v : List ℚ) : 0 ≤ sumSq v := by
  refine List.sum_nonneg ?_
  intro x hx
  rcases List.mem_map.mp hx with ⟨y, _, rfl⟩
  exact mul_self_nonneg y

theorem sumSq_eq_zero_of_all_zero {v : List ℚ} (h : ∀ x ∈ v, x = 0) : sumSq v = 0 := by
  refine List.sum_eq_zero ?_
  intro x hx
  rcases List.mem_map.mp hx with ⟨y, hy, rfl⟩
  simp [h y hy]

theorem cosineSim_zero_left {a : List ℚ} (b : List ℚ) (h : sumSq a = 0) :
    cosineSim a b = 0 := by
  unfold cosineSim
  rw [if_neg]
  intro hcon
  exact hcon.1 (by simp [h])

theorem cosineSim_zero_right (a : List ℚ) {b : List ℚ} (h : sumSq b = 0) :
    cosineSim a b = 0 := by
  unfold cosineSim
  rw [if_neg]
  intro hcon
  exact hcon.2 (by simp [h])

theorem cosineSim_nil_left (b : List ℚ) : cosineSim [] b = 0 :=
  cosineSim_zero_left b rfl

theorem cosineSim_nil_right (a : List ℚ) : cosineSim a [] = 0 :=
  cosineSim_zero_right a rfl

theorem cosineSim_of_pos {a b : List ℚ} (ha : 0 < sumSq a) (hb : 0 < sumSq b) :
    cosineSim a b =
      ((dotQ a b : ℚ) : ℝ) /
        (Real.sqrt ((sumSq a : ℚ) : ℝ) * Real.sqrt ((sumSq b : ℚ) : ℝ)) := by
  unfold cosineSim
  rw [if_pos]
  constructor
  · exact ne_of_gt (Real.sqrt_pos.mpr (by exact_mod_cast ha))
  · exact ne_of_gt (Real.sqrt_pos.mpr (by exact_mod_cast hb))

theorem truthy_some_of_ne {l : List ℚ} (h : l ≠ []) : truthy (some l) = true := by
  cases l with
  | nil => exact absurd rfl h
  | cons x xs => rfl

theorem cosineSim_eval {a b : List ℚ} {sa sb d : ℚ} {ra rb : ℝ}
    (hsa : sumSq a = sa) (hsb : sumSq b = sb) (hd : dotQ a b = d)
    (hra : ((sa : ℚ) : ℝ) = ra ^ 2) (hrb : ((sb : ℚ) : ℝ) = rb ^ 2)
    (hra0 : 0 < ra) (hrb0 : 0 < rb) :
    cosineSim a b = ((d : ℚ) : ℝ) / (ra * rb) := by
  unfold cosineSim
  rw [hsa, hsb, hd, hra, hrb, Real.sqrt_sq hra0.le, Real.sqrt_sq hrb0.le,
    if_pos ⟨ne_of_gt hra0, ne_of_gt hrb0⟩]

theorem dotQ_comm (a b : List ℚ) : dotQ a b = dotQ b a := by
  induction a generalizing b with
  | nil => cases b <;> simp [dotQ]
  | cons x xs ih =>
    cases b with
    | nil => simp [dotQ]
    | cons y ys =>
      simp only [dotQ, List.zip_cons_cons, List.map_cons, List.sum_cons] at *
      rw [mul_comm, ih ys]

theorem cos_lt_iff_dot_lt {c st : ℚ} (hc : 0 < c) (hst : 0 < st) {u v t : List ℚ}
    (hu : sumSq u = c) (hv : sumSq v = c) (ht : sumSq t = st) :
    cosineSim u t < cosineSim v t ↔ dotQ t u < dotQ t v := by
  rw [cosineSim_of_pos (hu ▸ hc) (ht ▸ hst), cosineSim_of_pos (hv ▸ hc) (ht ▸ hst),
    hu, hv, ht]
  have hd : (0:ℝ) < Real.sqrt ((c : ℚ) : ℝ) * Real.sqrt ((st : ℚ) : ℝ) :=
    mul_pos (Real.sqrt_pos.mpr (by exact_mod_cast hc))
      (Real.sqrt_pos.mpr (by exact_mod_cast hst))
  rw [div_lt_div_iff_of_pos_right hd]
  rw [dotQ_comm u t, dotQ_comm v t]
  exact_mod_cast Iff.rfl

/-! ## Unfolding lemmas for search_multimodal -/

theorem search_multimodal_pos (cat : String → Option Product)
    (tEmb iEmb : Option (List ℚ)) (tResp iResp : Except Unit (List StoreDoc))
    (a : ℚ) (limit : ℕ) (hc : (truthy tEmb && truthy iEmb) = true) :
    search_multimodal cat tEmb iEmb tResp iResp a limit =
      ((sortDesc (fun h => cosineSim (h.combined_embedding.getD [])
            (combineVec a (iEmb.getD []) (tEmb.getD [])))
          ((mergeResults (vector_search cat (tEmb.getD []) .text tResp)
              (vector_search cat (iEmb.getD []) .image iResp)).map
            (setCombined a))).take limit) := by
  unfold search_multimodal
  rw [if_pos hc]

theorem search_multimodal_neg (cat : String → Option Product)
    (tEmb iEmb : Option (List ℚ)) (tResp iResp : Except Unit (List StoreDoc))
    (a : ℚ) (limit : ℕ) (hc : ¬ ((truthy tEmb && truthy iEmb) = true)) :
    search_multimodal cat tEmb iEmb tResp iResp a limit = [] := by
  unfold search_multimodal
  rw [if_neg hc]

theorem map_id_take_map_setCombined (a : ℚ) (L : List Hit) (n : ℕ) :
    ((L.map (setCombined a)).take n).map Hit.id = (L.take n).map Hit.id := by
  induction L generalizing n with
  | nil => simp
  | cons x xs ih =>
    cases n with
    | zero => simp
    | succ m =>
      simp only [List.map_cons, List.take_succ_cons]
      rw [setCombined_id, ih]

/-! ## Claim C1 -/

/-- Claim C1, counterexample. The claim states that a per-item image
fetch or decode failure only skips that record and the pipeline
continues.  In the code the image fetch sits outside the per-item
try/except, so it raises into the outer handler: with two pending
products where the first one's image fetch fails, the run aborts with
zero stored items, the second product is never processed (it stays
Pending and no document is written for it), even though it stores fine
when run alone. -/
theorem C1_counterexample :
    (store_products emOkU fetchBad ⟨[p1, p2], []⟩).ok = false
    ∧ (store_products emOkU fetchBad ⟨[p1, p2], []⟩).stored_count = 0
    ∧ (store_products emOkU fetchBad ⟨[p1, p2], []⟩).state = ⟨[p1, p2], []⟩
    ∧ (store_products emOkU fetchBad ⟨[p2], []⟩).stored_count = 1 := by
  decide

/-- Claim C1, amended. A failure raised while computing the text
embedding is absorbed by the per-item handler: only that record is
skipped and the loop continues, as is a record whose embeddings come
back empty while the image fetch succeeds.  An image fetch or decode
failure, however, escapes the per-item handler and aborts the run: the
state is left as it was, the current and all later records stay Pending
and unprocessed, and the run reports failure. -/
theorem C1_amended {Img : Type} (em : EmbeddingModel Img) (fetch : String → Option Img)
    (p : Product) (rest : List Product) (s : IndexState) (n : ℕ) :
    (em.encodeText p.product_name = .error () →
      runGo em fetch (p :: rest) s n = runGo em fetch rest s n)
    ∧ (∀ t img, em.encodeText p.product_name = .ok t → fetch p.image_url = some img →
        (truthy t && truthy (em.encodeImage img)) = false →
        runGo em fetch (p :: rest) s n = runGo em fetch rest s n)
    ∧ (∀ t, em.encodeText p.product_name = .ok t → fetch p.image_url = none →
        runGo em fetch (p :: rest) s n = ⟨s, n, false, []⟩) := by
  refine ⟨?_, ?_, ?_⟩
  · intro h
    simp [runGo, stepOutcome, h]
  · intro t img ht hf hfalse
    simp [runGo, stepOutcome, ht, hf, hfalse]
  · intro t ht hf
    simp [runGo, stepOutcome, ht, hf]

/-- Claim C1, witness for the amended theorem at concrete inputs: a
raising text encoder skips the record and continues, and a failing
image fetch aborts the run. -/
theorem C1_amended_witness :
    (runGo emErrU fetchOkU [p1] ⟨[p1], []⟩ 0 = runGo emErrU fetchOkU [] ⟨[p1], []⟩ 0)
    ∧ (runGo emOkU fetchBad [p1] ⟨[p1], []⟩ 0 = ⟨⟨[p1], []⟩, 0, false, []⟩) :=
  ⟨(C1_amended emErrU fetchOkU p1 [] ⟨[p1], []⟩ 0).1 rfl,
   (C1_amended emOkU fetchBad p1 [] ⟨[p1], []⟩ 0).2.2 (some [1]) rfl (by decide)⟩

/-! ## Claim C2 -/

/-- Claim C2.  In every run of store_products the effect trace is a
sequence of write/flip pairs in which each is_emb flip to Done
immediately follows the successful embedding-document write of the same
product id; every effect in the trace belongs to a pending product whose
step stored a document; and a step stores a document only when the text
encoding returned a non-empty vector, the image fetch succeeded and the
image encoding returned a non-empty vector — so a record with an empty
embedding gets neither the write nor the state flip. -/
theorem C2_done_only_after_write {Img : Type} (em : EmbeddingModel Img)
    (fetch : String → Option Img) (s : IndexState) :
    wellFormedTrace (store_products em fetch s).trace
    ∧ (∀ e ∈ (store_products em fetch s).trace, ∃ p ∈ pendingOf s.products, ∃ d,
        stepOutcome em fetch p = .stored d ∧ (e = .write d ∨ e = .flip p.id))
    ∧ (∀ p d, stepOutcome em fetch p = .stored d →
        ∃ tv img iv, em.encodeText p.product_name = .ok (some tv) ∧ tv ≠ [] ∧
          fetch p.image_url = some img ∧ em.encodeImage img = some iv ∧ iv ≠ [] ∧
          d = ⟨p.id, tv, iv⟩) :=
  ⟨runGo_trace_wellFormed em fetch (pendingOf s.products) s 0,
   runGo_trace_provenance em fetch (pendingOf s.products) s 0,
   fun p d h => stepOutcome_stored em fetch p d h⟩

/-- Claim C2, witness: with one pending product that embeds fine, the
trace is exactly the write followed by the flip of the same id, it is
well formed, and the provenance of the flip is the stored step of that
product. -/
theorem C2_witness :
    (store_products emOkU fetchOkU ⟨[p2], []⟩).trace
      = [.write ⟨"p2", [1], [2]⟩, .flip "p2"]
    ∧ wellFormedTrace (store_products emOkU fetchOkU ⟨[p2], []⟩).trace
    ∧ (∃ p ∈ pendingOf [p2], ∃ d, stepOutcome emOkU fetchOkU p = .stored d ∧
        (Event.flip "p2" = .write d ∨ Event.flip "p2" = .flip p.id)) :=
  ⟨by decide,
   (C2_done_only_after_write emOkU fetchOkU ⟨[p2], []⟩).1,
   (C2_done_only_after_write emOkU fetchOkU ⟨[p2], []⟩).2.1 (Event.flip "p2") (by decide)⟩

/-! ## Claim C8 -/

/-- Claim C8.  Running store_products a second time on the state the
first run left behind stores zero new items: the pipeline selects only
records whose is_emb flag is still "R", every record stored by the first
run was flipped to "D", and the remaining pending records deterministically
skip or abort again.  The hypothesis is that catalog ids are unique,
which Firestore guarantees since the state flip addresses documents by
id. -/
theorem C8_second_run_stores_nothing {Img : Type} (em : EmbeddingModel Img)
    (fetch : String → Option Img) (s : IndexState)
    (hnd : (s.products.map Product.id).Nodup) :
    (store_products em fetch (store_products em fetch s).state).stored_count = 0 := by
  have h1 : (store_products em fetch s).state.products
      = flipSet (runStoredIds em fetch (pendingOf s.products)) s.products := by
    rw [store_products]
    exact runGo_products em fetch (pendingOf s.products) s 0
  rw [store_products, runGo_stored_count, h1, pendingOf_flipSet, Nat.zero_add]
  apply storesNothing_runCount
  apply storesNothing_filter_storedIds
  exact List.Nodup.sublist ((List.filter_sublist _).map Product.id) hnd

/-- Claim C8, witness: concrete catalog with distinct ids, one aborting
and one storable product; the second run stores nothing. -/
theorem C8_witness :
    ([p2, p1].map Product.id).Nodup
    ∧ (store_products emOkU fetchBad
        (store_products emOkU fetchBad ⟨[p2, p1], []⟩).state).stored_count = 0 :=
  ⟨by decide, C8_second_run_stores_nothing emOkU fetchBad ⟨[p2, p1], []⟩ (by decide)⟩

/-! ## Claim C3 -/

/-- Claim C3, counterexample.  The claim states that a query vector of
the wrong length fails with a DimensionMismatch error and that
mismatched lengths are never silently truncated, in particular not in
the fusion blend.  In the code the fusion blend zips the two vectors, so
a 1-dimensional image vector blended with a 2-dimensional text vector
silently yields a 1-dimensional combined embedding; and a store-side
rejection of a mismatched query is caught by vector_search, which
returns the empty list instead of surfacing any error. -/
theorem C3_counterexample :
    combineVec (1/2) [2] [4, 6] = [3]
    ∧ (combineVec (1/2) [2] [4, 6]).length ≠ ([4, 6] : List ℚ).length
    ∧ vector_search noCat [1, 1, 1] .text (.error ()) = [] := by
  refine ⟨?_, by simp [combineVec], rfl⟩
  simp only [combineVec, List.zip_cons_cons, List.zip_nil_right, List.map_cons,
    List.map_nil]
  norm_num

/-- Claim C3, amended.  The pipeline performs no dimension validation
and never raises a DimensionMismatch: the fusion blend truncates to the
shorter of the two vectors (zip semantics), the client-side dot product
on vectors of different lengths silently scores 0, and a store call that
fails (as it does on a query of the wrong dimension) is caught by
vector_search and returns the empty list. -/
theorem C3_amended (a : ℚ) (img txt v1 v2 : List ℚ) (cat : String → Option Product)
    (q : List ℚ) (qt : QType) :
    (combineVec a img txt).length = min img.length txt.length
    ∧ (v1.length ≠ v2.length → calculate_dot_product_score v1 v2 = 0)
    ∧ vector_search cat q qt (.error ()) = [] :=
  ⟨combineVec_length a img txt,
   fun h => by simp [calculate_dot_product_score, h],
   rfl⟩

/-- Claim C3, witness for the amended theorem: the blend of a
1-dimensional and a 2-dimensional vector has length 1, and the dot
product of mismatched vectors is 0. -/
theorem C3_witness :
    (combineVec (1/2) [2] [4, 6]).length = min 1 2
    ∧ calculate_dot_product_score [1] [1, 2] = 0 :=
  ⟨(C3_amended (1/2) [2] [4, 6] [1] [1, 2] noCat [] .text).1,
   (C3_amended (1/2) [2] [4, 6] [1] [1, 2] noCat [] .text).2.1 (by decide)⟩

/-! ## Claim C4 -/

/-- Claim C4.  A single-modality search returns the per-candidate hits
re-sorted descending by the dot-product score recomputed client-side
from the stored raw vectors (the store's order is only the tie-break):
the output is sorted descending by similarity_score; equal-score hits
keep the store's returned order (the filter at any score value is
unchanged, the standard characterisation of a stable sort); a candidate
with a missing or empty stored embedding still appears, with score 0;
and the positive-score hits form the front of the list with the
zero-or-negative ones behind them. -/
theorem C4_recomputed_stable_sort (cat : String → Option Product) (q : List ℚ)
    (qt : QType) (cands : List StoreDoc) :
    (vectorSearchOk cat q qt cands).Pairwise
        (fun a b => b.similarity_score ≤ a.similarity_score)
    ∧ (∀ s : ℚ, (vectorSearchOk cat q qt cands).filter
          (fun h => decide (h.similarity_score = s))
        = (cands.map (mkHit cat q qt)).filter (fun h => decide (h.similarity_score = s)))
    ∧ (∀ d ∈ cands, truthy (embField qt d) = false →
        mkHit cat q qt d ∈ vectorSearchOk cat q qt cands
        ∧ (mkHit cat q qt d).similarity_score = 0)
    ∧ (vectorSearchOk cat q qt cands).filter (fun h => decide (0 < h.similarity_score))
        ++ (vectorSearchOk cat q qt cands).filter
            (fun h => decide (h.similarity_score ≤ 0))
      = vectorSearchOk cat q qt cands := by
  refine ⟨sorted_sortDesc _ _, ?_, ?_, ?_⟩
  · intro s
    exact filter_sortDesc (fun h : Hit => h.similarity_score) _ s
  · intro d hd htr
    refine ⟨mem_sortDesc.mpr (List.mem_map_of_mem _ hd), ?_⟩
    simp [mkHit, htr]
  · exact sorted_filter_pos_append (fun h : Hit => h.similarity_score) _
      (sorted_sortDesc _ _)

/-- Claim C4, witness: concrete search where one candidate's stored
embedding is missing; the hit still appears, scored 0. -/
theorem C4_witness :
    mkHit noCat [1, 0] .text dZ ∈ vectorSearchOk noCat [1, 0] .text [dA4, dZ]
    ∧ (mkHit noCat [1, 0] .text dZ).similarity_score = 0 :=
  (C4_recomputed_stable_sort noCat [1, 0] .text [dA4, dZ]).2.2.1 dZ (by decide) (by decide)

/-! ## Claim C5 -/

/-- Claim C5.  The fused combined embedding of a merged candidate: the
per-dimension weighted sum alpha * image + (1 - alpha) * text when both
stored vectors are present; the present vector unchanged when exactly
one is; the empty vector when neither is, in which case the fused score
(the cosine of the combined embedding against the blended query) is 0.
Cosine similarity against a zero-length or all-zero vector is 0 rather
than an error. -/
theorem C5_blend (a : ℚ) (h : Hit) (qc b v : List ℚ) :
    ((h.text_embedding.getD [] ≠ [] → h.image_embedding.getD [] ≠ [] →
        (setCombined a h).combined_embedding
          = some (List.zipWith (fun x y => a * x + (1 - a) * y)
              (h.image_embedding.getD []) (h.text_embedding.getD [])))
      ∧ (h.text_embedding.getD [] ≠ [] → h.image_embedding.getD [] = [] →
          (setCombined a h).combined_embedding = some (h.text_embedding.getD []))
      ∧ (h.text_embedding.getD [] = [] → h.image_embedding.getD [] ≠ [] →
          (setCombined a h).combined_embedding = some (h.image_embedding.getD []))
      ∧ (h.text_embedding.getD [] = [] → h.image_embedding.getD [] = [] →
          (setCombined a h).combined_embedding = some []
          ∧ cosineSim ((setCombined a h).combined_embedding.getD []) qc = 0))
    ∧ cosineSim [] b = 0
    ∧ ((∀ x ∈ v, x = 0) → cosineSim v b = 0 ∧ cosineSim b v = 0) := by
  refine ⟨⟨?_, ?_, ?_, ?_⟩, cosineSim_nil_left b, ?_⟩
  · intro ht hi
    rw [setCombined_both a h ht hi, combineVec_eq_zipWith]
  · intro ht hi
    exact setCombined_text_only a h ht hi
  · intro ht hi
    exact setCombined_image_only a h ht hi
  · intro ht hi
    refine ⟨setCombined_neither a h ht hi, ?_⟩
    rw [setCombined_neither a h ht hi]
    exact cosineSim_nil_left qc
  · intro hv
    exact ⟨cosineSim_zero_left b (sumSq_eq_zero_of_all_zero hv),
      cosineSim_zero_right b (sumSq_eq_zero_of_all_zero hv)⟩

/-- Claim C5, witness: a hit carrying text embedding of dimension 2 and image
embedding of dimension 2, blended with alpha one half, and the zero-vector
cosine case. -/
theorem C5_witness :
    (setCombined (1/2) hW).combined_embedding
        = some (List.zipWith (fun x y => (1/2 : ℚ) * x + (1 - 1/2) * y) [3, 4] [1, 2])
    ∧ cosineSim [] [1] = 0
    ∧ cosineSim [0, 0] [1] = 0 :=
  ⟨(C5_blend (1/2) hW [] [1] [0, 0]).1.1 (by decide) (by decide),
   (C5_blend (1/2) hW [] [1] [0, 0]).2.1,
   ((C5_blend (1/2) hW [] [1] [0, 0]).2.2 (by decide)).1⟩

/-! ## Claim C7 -/

/-- Claim C7, counterexample.  The claim states that an
infrastructure-level failure propagates to the immediate caller as a
single terminal error, distinct from the empty-result case.  In the
code vector_search catches every exception and returns the empty list:
a store failure under a valid query embedding produces exactly the same
value as a failed query embedding, so nothing propagates and the two
cases are indistinguishable. -/
theorem C7_counterexample :
    vector_search noCat [1] .text (.error ()) = ([] : List Hit)
    ∧ search_by_text noCat (some [1]) (.error ()) = ([] : List Hit)
    ∧ search_by_text noCat none (.ok [dW]) = ([] : List Hit)
    ∧ search_by_text noCat (some [1]) (.error ())
        = search_by_text noCat none (.error ()) :=
  ⟨rfl, by decide, rfl, by decide⟩

/-- Claim C7, amended.  A search whose query embedding cannot be
produced (a falsy embedding) returns the empty list, not an error — as
claimed; but an infrastructure failure in the store call is caught
inside vector_search and also returns the empty list, indistinguishable
from the empty result, instead of propagating to the caller. -/
theorem C7_amended (cat : String → Option Product) (resp : Except Unit (List StoreDoc))
    (q : List ℚ) (qt : QType) (qe : Option (List ℚ)) :
    search_by_text cat none resp = []
    ∧ (truthy qe = false → search_by_text cat qe resp = [])
    ∧ vector_search cat q qt (.error ()) = [] :=
  ⟨rfl, fun h => by simp [search_by_text, h], rfl⟩

/-- Claim C7, witness for the amended theorem: the empty query embedding
returns the empty list, and so does a failing store. -/
theorem C7_witness :
    search_by_text noCat (some []) (.ok [dW]) = []
    ∧ vector_search noCat [1] .text (.error ()) = [] :=
  ⟨(C7_amended noCat (.ok [dW]) [1] .text (some [])).2.1 (by decide),
   (C7_amended noCat (.ok [dW]) [1] .text (some [])).2.2⟩

/-! ## Claim C9 -/

/-- Claim C9.  The fusion merge deduplicates by product id: every id
occurs at most once in the merged candidate set, a hit is in the merged
set exactly when it has a truthy id and is the first hit with that id in
the concatenation text_results ++ image_results (so a duplicate id keeps
the text-list entry, with its metadata and its text-modality score, and
the image-list duplicate is discarded), and for an id present in the
text list the merged set's entry for it is precisely the text list's
first entry for it. -/
theorem C9_merge_first_occurrence (txt img : List Hit) :
    ((mergeResults txt img).map Hit.id).Nodup
    ∧ (∀ h, h ∈ mergeResults txt img ↔
        h.id ≠ "" ∧ (txt ++ img).find? (fun x => x.id == h.id) = some h)
    ∧ (∀ j h, j ≠ "" → h ∈ txt → h.id = j →
        (mergeResults txt img).find? (fun x => x.id == j)
          = txt.find? (fun x => x.id == j)) := by
  refine ⟨(nodup_dedupeGo (txt ++ img) []).1, ?_, ?_⟩
  · intro h
    rw [mergeResults, mem_dedupeGo]
    simp
  · intro j h hj hmem hid
    have hfind : ∃ h', txt.find? (fun x => x.id == j) = some h' := by
      have : (txt.find? (fun x => x.id == j)).isSome :=
        List.find?_isSome.mpr ⟨h, hmem, by simp [hid]⟩
      exact Option.isSome_iff_exists.mp this
    rcases hfind with ⟨h', hh'⟩
    have hmem' : h' ∈ txt := List.mem_of_find?_eq_some hh'
    have hid' : h'.id = j := by simpa using List.find?_some hh'
    have happend : (txt ++ img).find? (fun x => x.id == j) = some h' := by
      rw [List.find?_append, hh']
      rfl
    have hmerged : h' ∈ dedupeGo [] (txt ++ img) := by
      rw [mem_dedupeGo]
      refine ⟨hid' ▸ hj, by simp, ?_⟩
      rw [hid']
      exact happend
    rw [show mergeResults txt img = dedupeGo [] (txt ++ img) from rfl,
      find?_eq_of_nodup_ids (nodup_dedupeGo (txt ++ img) []).1 hmerged hid', hh']

/-- Claim C9, witness: id x occurs in both lists; the merged set keeps
the text-list entry for it, and the merged entry lookup agrees with the
text-list lookup. -/
theorem C9_witness :
    (mergeResults [hx1, hy1] [hx2]).find? (fun x => x.id == "x")
      = [hx1, hy1].find? (fun x => x.id == "x")
    ∧ (hx1 ∈ mergeResults [hx1, hy1] [hx2] ↔
        hx1.id ≠ "" ∧ ([hx1, hy1] ++ [hx2]).find? (fun x => x.id == hx1.id) = some hx1) :=
  ⟨(C9_merge_first_occurrence [hx1, hy1] [hx2]).2.2 "x" hx1 (by decide) (by decide) (by decide),
   (C9_merge_first_occurrence [hx1, hy1] [hx2]).2.1 hx1⟩

/-! ## Claim C10 -/

/-- Claim C10.  Every hit returned by the multimodal search is one of
the merged retrieval hits with only its combined_embedding field filled
in, so its exposed similarity_score is exactly the single-modality
dot-product score computed at retrieval time; the cosine against the
blended query embedding is used only as the sort key and is never
written into a returned hit.  Every retrieval hit, in turn, is the
per-candidate dict built by vector_search (whose similarity_score is the
recomputed dot product, or 0 for a falsy stored embedding). -/
theorem C10_exposed_score_is_retrieval_score (cat : String → Option Product)
    (tEmb iEmb : Option (List ℚ)) (tResp iResp : Except Unit (List StoreDoc))
    (a : ℚ) (limit : ℕ) :
    (∀ h ∈ search_multimodal cat tEmb iEmb tResp iResp a limit,
      ∃ h₀ ∈ mergeResults (vector_search cat (tEmb.getD []) .text tResp)
          (vector_search cat (iEmb.getD []) .image iResp),
        h = setCombined a h₀ ∧ h.similarity_score = h₀.similarity_score)
    ∧ (∀ (q : List ℚ) (qt : QType) (cands : List StoreDoc),
        ∀ h₀ ∈ vectorSearchOk cat q qt cands, ∃ d ∈ cands, h₀ = mkHit cat q qt d) := by
  constructor
  · by_cases hc : (truthy tEmb && truthy iEmb) = true
    · intro h hmem
      rw [search_multimodal_pos cat tEmb iEmb tResp iResp a limit hc] at hmem
      have hmem2 := mem_sortDesc.mp (List.take_subset limit _ hmem)
      rcases List.mem_map.mp hmem2 with ⟨h₀, hh₀, rfl⟩
      exact ⟨h₀, hh₀, rfl, setCombined_similarity_score a h₀⟩
    · intro h hmem
      rw [search_multimodal_neg cat tEmb iEmb tResp iResp a limit hc] at hmem
      cases hmem
  · intro q qt cands h₀ hmem
    rcases List.mem_map.mp (mem_sortDesc.mp hmem) with ⟨d, hd, rfl⟩
    exact ⟨d, hd, rfl⟩

/-- Claim C10, witness: a singleton multimodal search; the returned hit
is the retrieval hit with its combined embedding set, score unchanged. -/
theorem C10_witness :
    ∃ h₀ ∈ mergeResults (vector_search noCat ((some [1]).getD []) .text (.ok [dW]))
        (vector_search noCat ((some [1]).getD []) .image (.ok [])),
      setCombined 0 (mkHit noCat [1] .text dW) = setCombined 0 h₀
      ∧ (setCombined 0 (mkHit noCat [1] .text dW)).similarity_score
          = h₀.similarity_score :=
  (C10_exposed_score_is_retrieval_score noCat (some [1]) (some [1])
      (.ok [dW]) (.ok []) 0 1).1
    (setCombined 0 (mkHit noCat [1] .text dW))
    (by
      rw [search_multimodal_pos noCat (some [1]) (some [1]) (.ok [dW]) (.ok []) 0 1 rfl]
      exact List.mem_singleton.mpr rfl)

/-! ## Claim C6 -/

/-- Claim C6, counterexample.  The claim states that fusion with alpha
zero ranks like the text-only search on the merged candidate set.  But
at alpha zero fusion ranks by cosine similarity against the text query
while the text search ranks by raw dot product, and the two disagree as
soon as candidate norms differ: for the text query [1,0], candidate A
with stored text embedding [4,3] and candidate B with [1,0], the text
search returns A before B (dot 4 against 1) while the alpha-zero fusion
returns B before A (cosine 1 against 4/5). -/
theorem C6_counterexample :
    (search_multimodal noCat (some [1, 0]) (some [1, 0])
        (.ok [dA6, dB6]) (.ok []) 0 2).map Hit.id = ["B", "A"]
    ∧ (vector_search noCat [1, 0] .text (.ok [dA6, dB6])).map Hit.id = ["A", "B"] := by
  have hsA : (mkHit noCat [1, 0] .text dA6).similarity_score = 4 := by
    norm_num [mkHit, dA6, embField, truthy, calculate_dot_product_score, dotQ]
  have hsB : (mkHit noCat [1, 0] .text dB6).similarity_score = 1 := by
    norm_num [mkHit, dB6, embField, truthy, calculate_dot_product_score, dotQ]
  have h2 : vector_search noCat [1, 0] .text (.ok [dA6, dB6])
      = [mkHit noCat [1, 0] .text dA6, mkHit noCat [1, 0] .text dB6] := by
    show sortDesc (fun h => h.similarity_score)
        ([dA6, dB6].map (mkHit noCat [1, 0] .text)) = _
    simp only [List.map_cons, List.map_nil, sortDesc, insertDesc]
    rw [if_neg]
    rw [hsA, hsB]
    norm_num
  have s1 : sumSq [4, 3] = 25 := by norm_num [sumSq]
  have s2 : sumSq [1, 0] = 1 := by norm_num [sumSq]
  have d1 : dotQ [4, 3] [1, 0] = 4 := by norm_num [dotQ]
  have d2 : dotQ [1, 0] [1, 0] = 1 := by norm_num [dotQ]
  have e1 : cosineSim [4, 3] [1, 0] = ((4 : ℚ) : ℝ) / (5 * 1) :=
    cosineSim_eval s1 s2 d1 (by norm_num) (by norm_num) (by norm_num) (by norm_num)
  have e2 : cosineSim [1, 0] [1, 0] = ((1 : ℚ) : ℝ) / (1 * 1) :=
    cosineSim_eval s2 s2 d2 (by norm_num) (by norm_num) (by norm_num) (by norm_num)
  have hlt : cosineSim [4, 3] [1, 0] < cosineSim [1, 0] [1, 0] := by
    rw [e1, e2]
    push_cast
    norm_num
  constructor
  · rw [search_multimodal_pos noCat (some [1, 0]) (some [1, 0])
      (.ok [dA6, dB6]) (.ok []) 0 2 rfl]
    simp only [Option.getD_some]
    rw [h2]
    rw [show vector_search noCat [1, 0] .image (.ok []) = [] from rfl]
    rw [show mergeResults [mkHit noCat [1, 0] .text dA6, mkHit noCat [1, 0] .text dB6] []
        = [mkHit noCat [1, 0] .text dA6, mkHit noCat [1, 0] .text dB6] from rfl]
    have hqc : combineVec 0 [1, 0] [1, 0] = [1, 0] := combineVec_zero _ _ rfl
    simp only [hqc, List.map_cons, List.map_nil, sortDesc, insertDesc]
    rw [show (setCombined 0 (mkHit noCat [1, 0] .text dA6)).combined_embedding.getD []
        = [4, 3] from rfl]
    rw [show (setCombined 0 (mkHit noCat [1, 0] .text dB6)).combined_embedding.getD []
        = [1, 0] from rfl]
    rw [if_pos hlt]
    rfl
  · rw [h2]
    rfl

/-- Claim C6, amended.  At the boundary weights the fusion sorts the
merged candidates by cosine similarity against the corresponding query
embedding, not by the dot product the single-modality search uses, so
the two rankings agree only up to normalisation: whenever every merged
candidate carries an embedding of the boundary modality with one common
positive squared norm (and all dimensions agree with the query), the
alpha-zero fusion ranking equals the text-modality dot-product ranking
of the merged candidate set, and symmetrically the alpha-one fusion
ranking equals the image-modality dot-product ranking. -/
theorem C6_amended (cat : String → Option Product) (t i : List ℚ)
    (tResp iResp : Except Unit (List StoreDoc)) (limit : ℕ) :
    (∀ c : ℚ, t ≠ [] → i ≠ [] → i.length = t.length → 0 < c → 0 < sumSq t →
      (∀ h ∈ mergedOf cat t i tResp iResp,
        h.text_embedding.getD [] ≠ []
        ∧ sumSq (h.text_embedding.getD []) = c
        ∧ (h.text_embedding.getD []).length = t.length
        ∧ (h.image_embedding.getD [] = [] ∨
            (h.image_embedding.getD []).length = (h.text_embedding.getD []).length)) →
      (search_multimodal cat (some t) (some i) tResp iResp 0 limit).map Hit.id
        = ((sortDesc (fun h => calculate_dot_product_score t (h.text_embedding.getD []))
            (mergedOf cat t i tResp iResp)).take limit).map Hit.id)
    ∧ (∀ c : ℚ, t ≠ [] → i ≠ [] → i.length = t.length → 0 < c → 0 < sumSq i →
      (∀ h ∈ mergedOf cat t i tResp iResp,
        h.image_embedding.getD [] ≠ []
        ∧ sumSq (h.image_embedding.getD []) = c
        ∧ (h.image_embedding.getD []).length = i.length
        ∧ (h.text_embedding.getD [] = [] ∨
            (h.text_embedding.getD []).length = (h.image_embedding.getD []).length)) →
      (search_multimodal cat (some t) (some i) tResp iResp 1 limit).map Hit.id
        = ((sortDesc (fun h => calculate_dot_product_score i (h.image_embedding.getD []))
            (mergedOf cat t i tResp iResp)).take limit).map Hit.id) := by
  constructor
  · intro c ht hi hlen hc hst hall
    have htr : (truthy (some t) && truthy (some i)) = true := by
      rw [truthy_some_of_ne ht, truthy_some_of_ne hi]
      rfl
    rw [search_multimodal_pos cat (some t) (some i) tResp iResp 0 limit htr]
    simp only [Option.getD_some]
    have hqc : combineVec 0 i t = t := combineVec_zero i t hlen
    simp only [hqc]
    rw [show mergeResults (vector_search cat t .text tResp)
        (vector_search cat i .image iResp) = mergedOf cat t i tResp iResp from rfl]
    rw [sortDesc_map]
    have hkey : ∀ h ∈ mergedOf cat t i tResp iResp,
        (setCombined 0 h).combined_embedding.getD [] = h.text_embedding.getD [] := by
      intro h hm
      rcases hall h hm with ⟨htne, _, _, him⟩
      rcases him with him | him
      · rw [setCombined_text_only 0 h htne him]
        rfl
      · have him_ne : h.image_embedding.getD [] ≠ [] := by
          intro hnil
          rw [hnil] at him
          exact htne (List.eq_nil_of_length_eq_zero him.symm)
        rw [setCombined_both 0 h htne him_ne, Option.getD_some, combineVec_zero _ _ him]
    have hcong : sortDesc
          (fun b => cosineSim ((setCombined 0 b).combined_embedding.getD []) t)
          (mergedOf cat t i tResp iResp)
        = sortDesc (fun h => calculate_dot_product_score t (h.text_embedding.getD []))
          (mergedOf cat t i tResp iResp) := by
      apply sortDesc_congr
      intro x hx y hy
      rcases hall x hx with ⟨hxne, hxsq, hxlen, _⟩
      rcases hall y hy with ⟨hyne, hysq, hylen, _⟩
      rw [hkey x hx, hkey y hy]
      rw [show calculate_dot_product_score t (x.text_embedding.getD [])
          = dotQ t (x.text_embedding.getD []) from by
        rw [calculate_dot_product_score, if_pos hxlen.symm]]
      rw [show calculate_dot_product_score t (y.text_embedding.getD [])
          = dotQ t (y.text_embedding.getD []) from by
        rw [calculate_dot_product_score, if_pos hylen.symm]]
      exact cos_lt_iff_dot_lt hc hst hxsq hysq rfl
    rw [hcong, map_id_take_map_setCombined]
  · intro c ht hi hlen hc hsi hall
    have htr : (truthy (some t) && truthy (some i)) = true := by
      rw [truthy_some_of_ne ht, truthy_some_of_ne hi]
      rfl
    rw [search_multimodal_pos cat (some t) (some i) tResp iResp 1 limit htr]
    simp only [Option.getD_some]
    have hqc : combineVec 1 i t = i := combineVec_one i t hlen
    simp only [hqc]
    rw [show mergeResults (vector_search cat t .text tResp)
        (vector_search cat i .image iResp) = mergedOf cat t i tResp iResp from rfl]
    rw [sortDesc_map]
    have hkey : ∀ h ∈ mergedOf cat t i tResp iResp,
        (setCombined 1 h).combined_embedding.getD [] = h.image_embedding.getD [] := by
      intro h hm
      rcases hall h hm with ⟨hine, _, _, htm⟩
      rcases htm with htm | htm
      · rw [setCombined_image_only 1 h htm hine]
        rfl
      · have htm_ne : h.text_embedding.getD [] ≠ [] := by
          intro hnil
          rw [hnil] at htm
          exact hine (List.eq_nil_of_length_eq_zero htm.symm)
        rw [setCombined_both 1 h htm_ne hine, Option.getD_some, combineVec_one _ _ htm.symm]
    have hcong : sortDesc
          (fun b => cosineSim ((setCombined 1 b).combined_embedding.getD []) i)
          (mergedOf cat t i tResp iResp)
        = sortDesc (fun h => calculate_dot_product_score i (h.image_embedding.getD []))
          (mergedOf cat t i tResp iResp) := by
      apply sortDesc_congr
      intro x hx y hy
      rcases hall x hx with ⟨hxne, hxsq, hxlen, _⟩
      rcases hall y hy with ⟨hyne, hysq, hylen, _⟩
      rw [hkey x hx, hkey y hy]
      rw [show calculate_dot_product_score i (x.image_embedding.getD [])
          = dotQ i (x.image_embedding.getD []) from by
        rw [calculate_dot_product_score, if_pos hxlen.symm]]
      rw [show calculate_dot_product_score i (y.image_embedding.getD [])
          = dotQ i (y.image_embedding.getD []) from by
        rw [calculate_dot_product_score, if_pos hylen.symm]]
      exact cos_lt_iff_dot_lt hc hsi hxsq hysq rfl
    rw [hcong, map_id_take_map_setCombined]

/-- Claim C6, witness for the amended theorem: a singleton candidate set
of unit norm, where the alpha-zero fusion ranking equals the text
dot-product ranking of the merged set. -/
theorem C6_witness :
    (search_multimodal noCat (some [1]) (some [1]) (.ok [dW]) (.ok []) 0 1).map Hit.id
      = ((sortDesc (fun h => calculate_dot_product_score [1] (h.text_embedding.getD []))
          (mergedOf noCat [1] [1] (.ok [dW]) (.ok []))).take 1).map Hit.id :=
  (C6_amended noCat [1] [1] (.ok [dW]) (.ok []) 1).1 1 (by simp) (by simp) rfl
    (by norm_num) (by norm_num [sumSq])
    (by
      intro h hm
      have hh : h = mkHit noCat [1] .text dW := by
        have hm2 : h ∈ [mkHit noCat [1] .text dW] := by
          rw [show mergedOf noCat [1] [1] (.ok [dW]) (.ok [])
              = [mkHit noCat [1] .text dW] from rfl] at hm
          exact hm
        simpa using hm2
      subst hh
      refine ⟨by simp [mkHit, dW], ?_, rfl, Or.inl rfl⟩
      norm_num [mkHit, dW, sumSq])

end PLE
